import Mathlib

/-!
Verification of the DDSketch core (`sketch.rs`, `protos/mappers.rs`) of the
sketches-rust repository, as a shallow embedding in Lean 4.

The sketch logic of `src/sketch.rs` and the schema mappers of
`src/protos/mappers.rs` are translated directly.  The files
`index_mapping.rs`, `store.rs`, `error.rs` and the byte-level I/O helpers are
not part of the provided sources; where a definition depends on them it is
modelled from the specification (§3, §4.1, §4.2, §4.4) and its doc comment
says so explicitly.

Numeric conventions of the embedding: `f64` sample values are modelled by
`F64`, rationals extended with a NaN element whose comparisons are always
false, exactly as IEEE-754 comparisons on NaN behave in the Rust source;
counts, quantiles and bucket representative values are modelled as exact
rationals.
-/

set_option autoImplicit false

set_option allowUnsafeReducibility true in
attribute [semireducible] Rat.add Rat.mul Rat.sub Rat.neg Rat.div Rat.inv Rat.blt

namespace DDSketchRust

/-- Modelled from the spec (§7): `error.rs` is not among the sources; the
spec describes a single result-style error kind `InvalidArgument(reason)`. -/
inductive Error where
  | invalidArgument (reason : String) : Error
  deriving DecidableEq, Repr

/-- An `f64` sample value: either NaN or a finite rational.  Comparisons
involving NaN are false, as in IEEE-754, which is the behaviour the Rust
`<` / `>` operators on `f64` have. -/
inductive F64 where
  | nan : F64
  | fin (q : ℚ) : F64
  deriving DecidableEq, Repr

namespace F64

/-- IEEE `<` on `f64`: false whenever either side is NaN. -/
def lt : F64 → F64 → Bool
  | fin a, fin b => a < b
  | _, _ => false

/-- IEEE `>` on `f64`: false whenever either side is NaN. -/
def gt : F64 → F64 → Bool
  | fin a, fin b => b < a
  | _, _ => false

/-- IEEE negation; `-NaN` is NaN. -/
def neg : F64 → F64
  | nan => nan
  | fin a => fin (-a)

/-- IEEE absolute value; `|NaN|` is NaN. -/
def abs : F64 → F64
  | nan => nan
  | fin a => fin |a|

end F64

/-- The two index-mapping layouts of the source (`LOG`, `LogCubic`). -/
inductive IndexMappingLayout where
  | LOG : IndexMappingLayout
  | LogCubic : IndexMappingLayout
  deriving DecidableEq, Repr

/-- Modelled from the spec (§3, §4.1): `index_mapping.rs` is not among the
sources.  A mapping is characterized by its layout, `gamma` and
`index_offset`; two mappings are equal iff those match (the derived
`multiplier` and `relative_accuracy` are functions of them).  The numeric
`index`/`value` functions live in the missing file, so the sketch operations
below take them as explicit parameters. -/
structure IndexMapping where
  layout : IndexMappingLayout
  gamma : ℚ
  index_offset : ℚ
  deriving DecidableEq, Repr

/-- Modelled from the spec (§4.1): `with_gamma_offset(layout, gamma, offset)`
fails if `gamma ≤ 1` (non-finite inputs are not representable in the
rational embedding). -/
def IndexMapping.with_gamma_offset (layout : IndexMappingLayout) (gamma : ℚ)
    (index_offset : ℚ) : Except Error IndexMapping :=
  if gamma ≤ 1 then
    .error (.invalidArgument "Gamma must be greater than 1.")
  else
    .ok ⟨layout, gamma, index_offset⟩

/-- Modelled from the spec (§3, §4.2): `store.rs` is not among the sources.
A store is modelled by its extensional content, the finite list of non-empty
bins `(index, count)` in strictly ascending index order; this is exactly the
data the store contract of §4.2 exposes through its iterators. -/
structure Store where
  bins : List (Int × ℚ)
  deriving DecidableEq, Repr

namespace Store

/-- A store with no bins. -/
def empty : Store := ⟨[]⟩

/-- Insert `c > 0` at index `i` into an ascending bin list, merging with an
existing bin for `i`. -/
def insertAdd : List (Int × ℚ) → Int → ℚ → List (Int × ℚ)
  | [], i, c => [(i, c)]
  | (j, d) :: rest, i, c =>
    if i < j then (i, c) :: (j, d) :: rest
    else if i = j then (j, d + c) :: rest
    else (j, d) :: insertAdd rest i c

/-- Store `add` per the spec contract (§4.2): a negative count is ignored, a
zero count is a no-op, otherwise the bin at `index` is incremented. -/
def add (s : Store) (index : Int) (count : ℚ) : Store :=
  if count ≤ 0 then s else ⟨insertAdd s.bins index count⟩

/-- Count lookup on the bin list: the count of the first bin with the given
index, `0` when absent (§4.2 `get_count`). -/
def lookupCount : List (Int × ℚ) → Int → ℚ
  | [], _ => 0
  | b :: rest, i => if b.1 = i then b.2 else lookupCount rest i

/-- `get_count(index)`: zero for absent bins (§4.2). -/
def get_count (s : Store) (index : Int) : ℚ :=
  lookupCount s.bins index

/-- `get_total_count()`: the sum of all bin counts (§4.2). -/
def get_total_count (s : Store) : ℚ :=
  (s.bins.map (·.2)).sum

/-- `is_empty()` (§4.2). -/
def is_empty (s : Store) : Bool :=
  s.bins.isEmpty

/-- `get_min_index()`: smallest index with nonzero count; sentinel `0` when
empty (callers gate on `is_empty`, §4.2). -/
def get_min_index (s : Store) : Int :=
  (s.bins.head?.map (·.1)).getD 0

/-- `get_max_index()`: largest index with nonzero count; sentinel `0` when
empty (§4.2). -/
def get_max_index (s : Store) : Int :=
  (s.bins.getLast?.map (·.1)).getD 0

/-- `get_ascending_iter()`: the non-empty bins in ascending index order. -/
def get_ascending_iter (s : Store) : List (Int × ℚ) :=
  s.bins

/-- `get_descending_iter()` / `get_descending_stream()`: the non-empty bins
in descending index order. -/
def get_descending_iter (s : Store) : List (Int × ℚ) :=
  s.bins.reverse

/-- `get_sum(mapping) = Σ count · mapping.value(index)` (§4.2), with the
mapping's numeric `value` function passed explicitly. -/
def get_sum (s : Store) (val : Int → ℚ) : ℚ :=
  (s.bins.map (fun b => b.2 * val b.1)).sum

/-- `merge_with(stream)`: accumulate another store's bins into this one
(§4.2). -/
def merge_with (s : Store) (stream : List (Int × ℚ)) : Store :=
  stream.foldl (fun st b => st.add b.1 b.2) s

/-- Well-formedness of the extensional store content: indices strictly
ascending and all counts positive.  Every store reachable through the §4.2
contract satisfies it (bins hold only accumulated positive counts). -/
def WF (s : Store) : Prop :=
  s.bins.Pairwise (fun a b => a.1 < b.1) ∧ ∀ b ∈ s.bins, 0 < b.2

instance (s : Store) : Decidable s.WF := by
  unfold WF; infer_instance

end Store

/-- The sketch state of `sketch.rs`: one index mapping, the two stores for
the positive and negative half-lines, and the zero bucket. -/
structure DDSketch where
  index_mapping : IndexMapping
  min_indexed_value : ℚ
  max_indexed_value : ℚ
  negative_value_store : Store
  positive_value_store : Store
  zero_count : ℚ
  deriving DecidableEq, Repr

namespace DDSketch

/-- `DDSketch::accept_with_count` (sketch.rs:38-56), translated exactly: the
guards drop negative counts and out-of-range values, and each accepting
branch adds the constant `1.0` — not `count` — to its target, as the source
does.  `idx` is the mapping's numeric `index` function (its formula lives in
the absent `index_mapping.rs`). -/
def accept_with_count (idx : F64 → Int) (s : DDSketch) (value : F64)
    (count : ℚ) : DDSketch :=
  if count < 0 then s
  else if F64.lt value (.fin (-s.max_indexed_value))
       || F64.gt value (.fin s.max_indexed_value) then s
  else if F64.gt value (.fin s.min_indexed_value) then
    { s with positive_value_store := s.positive_value_store.add (idx value) 1 }
  else if F64.lt value (.fin (-s.min_indexed_value)) then
    { s with negative_value_store :=
        s.negative_value_store.add (idx (F64.neg value)) 1 }
  else
    { s with zero_count := s.zero_count + 1 }

/-- `DDSketch::accept` (sketch.rs:34-36). -/
def accept (idx : F64 → Int) (s : DDSketch) (value : F64) : DDSketch :=
  s.accept_with_count idx value 1

/-- `DDSketch::is_empty` (sketch.rs:58-62). -/
def is_empty (s : DDSketch) : Bool :=
  s.zero_count = 0 && s.negative_value_store.is_empty
    && s.positive_value_store.is_empty

/-- `DDSketch::get_count` (sketch.rs:70-74). -/
def get_count (s : DDSketch) : ℚ :=
  s.zero_count + s.negative_value_store.get_total_count
    + s.positive_value_store.get_total_count

/-- `DDSketch::get_sum` (sketch.rs:76-87). -/
def get_sum (s : DDSketch) (val : Int → ℚ) : Option ℚ :=
  if s.get_count ≤ 0 then none
  else some (0 - s.negative_value_store.get_sum val
               + s.positive_value_store.get_sum val)

/-- `DDSketch::get_max` (sketch.rs:89-106). -/
def get_max (s : DDSketch) (val : Int → ℚ) : Option ℚ :=
  if !s.positive_value_store.is_empty then
    some (val s.positive_value_store.get_max_index)
  else if s.zero_count > 0 then some 0
  else if !s.negative_value_store.is_empty then
    some (-(val s.negative_value_store.get_min_index))
  else none

/-- `DDSketch::get_min` (sketch.rs:108-125). -/
def get_min (s : DDSketch) (val : Int → ℚ) : Option ℚ :=
  if !s.negative_value_store.is_empty then
    some (-(val s.negative_value_store.get_max_index))
  else if s.zero_count > 0 then some 0
  else if !s.positive_value_store.is_empty then
    some (val s.positive_value_store.get_min_index)
  else none

/-- `DDSketch::get_average` (sketch.rs:127-133). -/
def get_average (s : DDSketch) (val : Int → ℚ) : Option ℚ :=
  if s.get_count ≤ 0 then none
  else (s.get_sum val).map (fun x => x / s.get_count)

/-- The bin loop of `get_value_at_quantile`: walk the bins accumulating
`n += count`; return the first index whose accumulated `n` strictly exceeds
`rank` (`.inl index`), or the final accumulated `n` (`.inr n`) if no bin
does. -/
def scanBins (rank : ℚ) : List (Int × ℚ) → ℚ → Int ⊕ ℚ
  | [], n => .inr n
  | b :: rest, n =>
    if n + b.2 > rank then .inl b.1 else scanBins rank rest (n + b.2)

/-- `DDSketch::get_value_at_quantile` (sketch.rs:135-171), translated
exactly: range check on the quantile, emptiness check via `count ≤ 0`,
`rank = quantile · (count − 1)`, then the negative store descending, the
zero bucket, and the positive store ascending, each compared with strict
`>` against `rank`. -/
def get_value_at_quantile (val : Int → ℚ) (s : DDSketch) (quantile : ℚ) :
    Option ℚ :=
  if ¬(0 ≤ quantile ∧ quantile ≤ 1) then none
  else
    if s.get_count ≤ 0 then none
    else
      let rank := quantile * (s.get_count - 1)
      match scanBins rank s.negative_value_store.get_descending_iter 0 with
      | .inl i => some (-(val i))
      | .inr n0 =>
        if n0 + s.zero_count > rank then some 0
        else
          match scanBins rank s.positive_value_store.get_ascending_iter
              (n0 + s.zero_count) with
          | .inl i => some (val i)
          | .inr _ => none

/-- `DDSketch::merge_with` (sketch.rs:211-221): fail with `InvalidArgument`
on unequal mappings, otherwise merge each store from the other's descending
stream and add the zero counts. -/
def merge_with (s : DDSketch) (other : DDSketch) : Except Error DDSketch :=
  if s.index_mapping = other.index_mapping then
    .ok { s with
      negative_value_store := s.negative_value_store.merge_with
        other.negative_value_store.get_descending_iter
      positive_value_store := s.positive_value_store.merge_with
        other.positive_value_store.get_descending_iter
      zero_count := s.zero_count + other.zero_count }
  else
    .error (.invalidArgument "Unmatched indexMapping.")

end DDSketch

/-- Modelled from the spec (§4.4): the byte-level writers (`output.rs`,
`serde.rs` and the `encode` methods of `index_mapping.rs` / `store.rs`) are
not among the sources.  A block stands for one self-describing byte run of
the custom codec: a mapping block (flag + gamma + offset), the zero-count
feature block (flag + var-length double), or a store block (flag + encoded
bins). -/
inductive EncodedBlock where
  | indexMappingBlock (m : IndexMapping) : EncodedBlock
  | zeroCountBlock (c : ℚ) : EncodedBlock
  | positiveStoreBlock (bins : List (Int × ℚ)) : EncodedBlock
  | negativeStoreBlock (bins : List (Int × ℚ)) : EncodedBlock
  deriving DecidableEq, Repr

/-- Modelled from the spec (§4.4): `Output` collects the written blocks in
order; `with_capacity` only reserves space, and `trim` drops the unused
trailing capacity, returning exactly the written content. -/
structure Output where
  blocks : List EncodedBlock

/-- `Output::with_capacity(n)`: an empty output (capacity is layout, not
content). -/
def Output.with_capacity (_n : Nat) : Output := ⟨[]⟩

/-- Writing appends one block to the output. -/
def Output.write (o : Output) (b : EncodedBlock) : Output := ⟨o.blocks ++ [b]⟩

/-- `Output::trim`: the written content, at exact length. -/
def Output.trim (o : Output) : List EncodedBlock := o.blocks

/-- `DDSketch::encode` (sketch.rs:223-238), at block granularity: write the
index-mapping block, then — only when `zero_count ≠ 0` — the zero-count
block, then the positive-store block, then the negative-store block, and
return the trimmed output. -/
def DDSketch.encode (s : DDSketch) : List EncodedBlock :=
  let output := Output.with_capacity 64
  let output := output.write (.indexMappingBlock s.index_mapping)
  let output :=
    if s.zero_count ≠ 0 then output.write (.zeroCountBlock s.zero_count)
    else output
  let output := output.write (.positiveStoreBlock s.positive_value_store.bins)
  let output := output.write (.negativeStoreBlock s.negative_value_store.bins)
  output.trim

/-- The schema's interpolation enum (`proto::ddsketch::index_mapping`):
`NONE` and `CUBIC` are the values the mapper understands; `LINEAR` is a
declared value it does not. -/
inductive Interpolation where
  | NONE : Interpolation
  | LINEAR : Interpolation
  | CUBIC : Interpolation
  deriving DecidableEq, Repr

/-- The schema-based `IndexMapping` record. -/
structure ProtoIndexMapping where
  gamma : ℚ
  indexOffset : ℚ
  interpolation : Interpolation
  deriving DecidableEq, Repr

/-- The schema-based `Store` record: a sparse `binCounts` map (kept as an
association list) plus a contiguous array starting at
`contiguousBinIndexOffset`. -/
structure ProtoStore where
  binCounts : List (Int × ℚ)
  contiguousBinIndexOffset : Int
  contiguousBinCounts : List ℚ
  deriving DecidableEq, Repr

/-- The schema-based `DDSketch` record. -/
structure ProtoDDSketch where
  mapping : ProtoIndexMapping
  positiveValues : ProtoStore
  negativeValues : ProtoStore
  zeroCount : ℚ
  deriving DecidableEq, Repr

/-- The outcome of a schema-mapper translation.  The mappers are `From`
implementations, so they cannot return a result: invalid input makes them
panic (`unwrap` / `panic!`).  `err` is the result-style channel the spec
describes; it is part of the type so that the spec's statement can be
expressed, and the translations below never produce it. -/
inductive MapperOutcome (α : Type) where
  | ok (a : α) : MapperOutcome α
  | panicked (msg : String) : MapperOutcome α
  | err (e : Error) : MapperOutcome α
  deriving DecidableEq

/-- Whether a mapper outcome is the result-style error channel. -/
def MapperOutcome.isErr {α : Type} : MapperOutcome α → Bool
  | .err _ => true
  | _ => false

/-- `Result::unwrap`: an `Ok` value passes through, an `Err` panics. -/
def unwrapResult {α : Type} : Except Error α → MapperOutcome α
  | .ok a => .ok a
  | .error (.invalidArgument reason) => .panicked reason

/-- `From<MessageField<proto::IndexMapping>> for IndexMapping`
(mappers.rs:8-27): `NONE` rebuilds a `LOG` mapping and `CUBIC` a `LogCubic`
mapping from `gamma` and `indexOffset` (unwrapping the constructor's
result); any other interpolation panics with
"Unsupported interpolation type!". -/
def protoToIndexMapping (p : ProtoIndexMapping) : MapperOutcome IndexMapping :=
  match p.interpolation with
  | .NONE =>
    unwrapResult
      (IndexMapping.with_gamma_offset .LOG p.gamma p.indexOffset)
  | .CUBIC =>
    unwrapResult
      (IndexMapping.with_gamma_offset .LogCubic p.gamma p.indexOffset)
  | _ => .panicked "Unsupported interpolation type!"

/-- `From<IndexMapping> for MessageField<proto::IndexMapping>`
(mappers.rs:29-56): a `LOG` mapping is emitted with interpolation `NONE`, a
`LogCubic` mapping with `CUBIC`; `gamma` and the index offset are copied. -/
def indexMappingToProto (m : IndexMapping) : ProtoIndexMapping :=
  match m.layout with
  | .LOG => ⟨m.gamma, m.index_offset, .NONE⟩
  | .LogCubic => ⟨m.gamma, m.index_offset, .CUBIC⟩

/-- `From<MessageField<proto::Store>> for UnboundedSizeDenseStore`
(mappers.rs:58-75): add every entry of the sparse `binCounts` map, then add
the contiguous counts at consecutive indices from
`contiguousBinIndexOffset`. -/
def addContiguous : Store → Int → List ℚ → Store
  | st, _, [] => st
  | st, i, c :: rest => addContiguous (st.add i c) (i + 1) rest

/-- The store rebuilt from a schema record (mappers.rs:58-75). -/
def protoToStore (p : ProtoStore) : Store :=
  addContiguous (p.binCounts.foldl (fun st b => st.add b.1 b.2) Store.empty)
    p.contiguousBinIndexOffset p.contiguousBinCounts

/-- `From<Box<dyn Store>> for MessageField<proto::Store>`
(mappers.rs:77-94): an empty store maps to the default record; otherwise
`contiguousBinIndexOffset` is the store's min index, and
`contiguousBinCounts` holds the count of every index from min to max
inclusive (the source walks the dense buffer positions
`min_index − offset .. max_index − offset`, i.e. exactly those absolute
indices; the dense buffer internals live in the absent `store.rs`). -/
def storeToProto (s : Store) : ProtoStore :=
  if s.is_empty then ⟨[], 0, []⟩
  else
    ⟨[], s.get_min_index,
      (List.range (s.get_max_index - s.get_min_index + 1).toNat).map
        (fun k : ℕ => s.get_count (s.get_min_index + (k : Int)))⟩

/-- `From<DDSketch> for proto::DDSketch` (mappers.rs:113-129). -/
def sketchToProto (s : DDSketch) : ProtoDDSketch :=
  ⟨indexMappingToProto s.index_mapping,
    storeToProto s.positive_value_store,
    storeToProto s.negative_value_store,
    s.zero_count⟩

/-- `From<proto::DDSketch> for DDSketch` (mappers.rs:96-111): rebuild the
mapping (panicking as that translation does), rebuild both stores, keep the
zero count, and recompute the indexed-value bounds from the mapping.  The
numeric `min_indexable_value` / `max_indexable_value` functions live in the
absent `index_mapping.rs`, so they are passed explicitly as `minIV` /
`maxIV`. -/
def protoToSketch (minIV maxIV : IndexMapping → ℚ) (p : ProtoDDSketch) :
    MapperOutcome DDSketch :=
  match protoToIndexMapping p.mapping with
  | .panicked msg => .panicked msg
  | .err e => .err e
  | .ok m =>
    .ok
      { index_mapping := m
        min_indexed_value := max 0 (minIV m)
        max_indexed_value := maxIV m
        negative_value_store := protoToStore p.negativeValues
        positive_value_store := protoToStore p.positiveValues
        zero_count := p.zeroCount }

/-- The quantile algorithm exactly as the specification sentence states it
(§4.3): `None` when the quantile lies outside `[0,1]` or the sketch is
empty; otherwise `rank = q · (count − 1)`, the negative bins in descending
index order, then the zero bucket, then the positive bins in ascending
index order, each tested with strict `>` against `rank`. -/
def DDSketch.get_value_at_quantile_spec (val : Int → ℚ) (s : DDSketch)
    (quantile : ℚ) : Option ℚ :=
  if ¬(0 ≤ quantile ∧ quantile ≤ 1) then none
  else
    if s.is_empty then none
    else
      let rank := quantile * (s.get_count - 1)
      match DDSketch.scanBins rank s.negative_value_store.get_descending_iter
          0 with
      | .inl i => some (-(val i))
      | .inr n0 =>
        if n0 + s.zero_count > rank then some 0
        else
          match DDSketch.scanBins rank
              s.positive_value_store.get_ascending_iter
              (n0 + s.zero_count) with
          | .inl i => some (val i)
          | .inr _ => none

namespace Store

theorem lookupCount_eq_zero {l : List (Int × ℚ)} {i : Int}
    (h : ∀ b ∈ l, b.1 ≠ i) : lookupCount l i = 0 := by
  induction l with
  | nil => rfl
  | cons b rest ih =>
    simp only [lookupCount]
    rw [if_neg (h b (List.mem_cons_self b rest)),
      ih (fun x hx => h x (List.mem_cons_of_mem b hx))]

theorem lookupCount_nonneg {l : List (Int × ℚ)} {i : Int}
    (h : ∀ b ∈ l, 0 < b.2) : 0 ≤ lookupCount l i := by
  induction l with
  | nil => exact le_refl 0
  | cons b rest ih =>
    simp only [lookupCount]
    split
    · exact le_of_lt (h b (List.mem_cons_self b rest))
    · exact ih (fun x hx => h x (List.mem_cons_of_mem b hx))

theorem lookupCount_nil (i : Int) : lookupCount [] i = 0 := rfl

theorem lookupCount_cons (b : Int × ℚ) (l : List (Int × ℚ)) (i : Int) :
    lookupCount (b :: l) i = if b.1 = i then b.2 else lookupCount l i := rfl

theorem fst_of_mem_insertAdd {l : List (Int × ℚ)} {i : Int} {c : ℚ}
    {x : Int × ℚ} (hx : x ∈ insertAdd l i c) :
    x.1 = i ∨ x.1 ∈ l.map (·.1) := by
  induction l with
  | nil =>
    simp only [insertAdd, List.mem_singleton] at hx
    subst hx; left; rfl
  | cons b rest ih =>
    by_cases h1 : i < b.1
    · simp only [insertAdd, if_pos h1] at hx
      rcases List.mem_cons.mp hx with h2 | h2
      · subst h2; left; rfl
      · right; exact List.mem_map_of_mem (·.1) h2
    · by_cases h2 : i = b.1
      · simp only [insertAdd, if_neg h1, if_pos h2] at hx
        rcases List.mem_cons.mp hx with h3 | h3
        · subst h3; left; exact h2.symm
        · right; rw [List.map_cons]
          exact List.mem_cons_of_mem _ (List.mem_map_of_mem (·.1) h3)
      · simp only [insertAdd, if_neg h1, if_neg h2] at hx
        rcases List.mem_cons.mp hx with h3 | h3
        · subst h3; right; rw [List.map_cons]; exact List.mem_cons_self _ _
        · rcases ih h3 with h4 | h4
          · left; exact h4
          · right; rw [List.map_cons]; exact List.mem_cons_of_mem _ h4

theorem insertAdd_pairwise {l : List (Int × ℚ)} (i : Int) (c : ℚ)
    (h : l.Pairwise (fun a b => a.1 < b.1)) :
    (insertAdd l i c).Pairwise (fun a b => a.1 < b.1) := by
  induction l with
  | nil => simp [insertAdd]
  | cons b rest ih =>
    rcases List.pairwise_cons.mp h with ⟨hb, hrest⟩
    by_cases h1 : i < b.1
    · simp only [insertAdd, if_pos h1]
      refine List.pairwise_cons.mpr ⟨?_, List.pairwise_cons.mpr ⟨hb, hrest⟩⟩
      intro x hx
      rcases List.mem_cons.mp hx with h2 | h2
      · subst h2; exact h1
      · exact lt_trans h1 (hb x h2)
    · by_cases h2 : i = b.1
      · simp only [insertAdd, if_neg h1, if_pos h2]
        exact List.pairwise_cons.mpr ⟨hb, hrest⟩
      · simp only [insertAdd, if_neg h1, if_neg h2]
        refine List.pairwise_cons.mpr ⟨?_, ih hrest⟩
        intro x hx
        rcases fst_of_mem_insertAdd hx with h3 | h3
        · rw [h3]; omega
        · rcases List.mem_map.mp h3 with ⟨y, hy, hxy⟩
          rw [← hxy]; exact hb y hy

theorem insertAdd_pos {l : List (Int × ℚ)} {i : Int} {c : ℚ}
    (hl : ∀ b ∈ l, 0 < b.2) (hc : 0 < c) :
    ∀ b ∈ insertAdd l i c, 0 < b.2 := by
  induction l with
  | nil =>
    intro b hb
    simp only [insertAdd, List.mem_singleton] at hb
    subst hb; exact hc
  | cons x rest ih =>
    intro b hb
    by_cases h1 : i < x.1
    · simp only [insertAdd, if_pos h1] at hb
      rcases List.mem_cons.mp hb with h2 | h2
      · subst h2; exact hc
      · exact hl b h2
    · by_cases h2 : i = x.1
      · simp only [insertAdd, if_neg h1, if_pos h2] at hb
        rcases List.mem_cons.mp hb with h3 | h3
        · subst h3; exact add_pos (hl x (List.mem_cons_self x rest)) hc
        · exact hl b (List.mem_cons_of_mem x h3)
      · simp only [insertAdd, if_neg h1, if_neg h2] at hb
        rcases List.mem_cons.mp hb with h3 | h3
        · subst h3; exact hl x (List.mem_cons_self x rest)
        · exact ih (fun y hy => hl y (List.mem_cons_of_mem x hy)) b h3

theorem lookupCount_insertAdd {l : List (Int × ℚ)} (i : Int) (c : ℚ)
    (j : Int) (h : l.Pairwise (fun a b => a.1 < b.1)) :
    lookupCount (insertAdd l i c) j
      = lookupCount l j + if j = i then c else 0 := by
  induction l with
  | nil =>
    simp only [insertAdd, lookupCount_cons, lookupCount_nil, zero_add]
    by_cases hji : j = i
    · subst hji; simp
    · rw [if_neg (fun hh : i = j => hji hh.symm), if_neg hji]
  | cons b rest ih =>
    rcases List.pairwise_cons.mp h with ⟨hb, hrest⟩
    by_cases h1 : i < b.1
    · simp only [insertAdd, if_pos h1]
      by_cases hji : j = i
      · subst hji
        have hz : lookupCount (b :: rest) j = 0 := by
          apply lookupCount_eq_zero
          intro x hx
          rcases List.mem_cons.mp hx with h2 | h2
          · subst h2; omega
          · have := hb x h2; omega
        rw [hz, if_pos rfl, zero_add, lookupCount_cons, if_pos rfl]
      · rw [lookupCount_cons, if_neg (fun hh : i = j => hji hh.symm),
          if_neg hji, add_zero]
    · by_cases h2 : i = b.1
      · simp only [insertAdd, if_neg h1, if_pos h2]
        rw [lookupCount_cons, lookupCount_cons]
        by_cases hbj : b.1 = j
        · rw [if_pos hbj, if_pos hbj, if_pos (by omega : j = i)]
        · rw [if_neg hbj, if_neg hbj, if_neg (by omega : ¬ j = i), add_zero]
      · simp only [insertAdd, if_neg h1, if_neg h2]
        rw [lookupCount_cons, lookupCount_cons]
        by_cases hbj : b.1 = j
        · rw [if_pos hbj, if_pos hbj, if_neg (by omega : ¬ j = i), add_zero]
        · rw [if_neg hbj, if_neg hbj, ih hrest]

theorem add_WF (s : Store) (i : Int) (c : ℚ) (h : s.WF) : (s.add i c).WF := by
  unfold add
  split
  · exact h
  · rename_i hc
    exact ⟨insertAdd_pairwise i c h.1, insertAdd_pos h.2 (lt_of_not_le hc)⟩

theorem add_get_count (s : Store) (i : Int) (c : ℚ) (j : Int) (h : s.WF) :
    (s.add i c).get_count j
      = s.get_count j + if 0 < c ∧ j = i then c else 0 := by
  unfold add get_count
  split
  · rename_i hc
    have : ¬(0 < c ∧ j = i) := fun hh => absurd hh.1 (not_lt.mpr hc)
    rw [if_neg this, add_zero]
  · rename_i hc
    rw [lookupCount_insertAdd i c j h.1]
    by_cases hji : j = i
    · rw [if_pos hji, if_pos ⟨lt_of_not_le hc, hji⟩]
    · rw [if_neg hji, if_neg (fun hh => hji hh.2)]

/-- The total mass a bin stream carries at index `j`; merging a stream into
a store raises `get_count j` by exactly this much. -/
def lookupSum (l : List (Int × ℚ)) (j : Int) : ℚ :=
  (l.map (fun b => if b.1 = j then b.2 else 0)).sum

theorem lookupSum_nil (j : Int) : lookupSum [] j = 0 := rfl

theorem lookupSum_cons (b : Int × ℚ) (l : List (Int × ℚ)) (j : Int) :
    lookupSum (b :: l) j
      = (if b.1 = j then b.2 else 0) + lookupSum l j := by
  unfold lookupSum
  rw [List.map_cons, List.sum_cons]

theorem lookupSum_reverse (l : List (Int × ℚ)) (j : Int) :
    lookupSum l.reverse j = lookupSum l j := by
  unfold lookupSum
  rw [List.map_reverse, List.sum_reverse]

theorem lookupSum_eq_zero {l : List (Int × ℚ)} {j : Int}
    (h : ∀ b ∈ l, b.1 ≠ j) : lookupSum l j = 0 := by
  induction l with
  | nil => rfl
  | cons b rest ih =>
    rw [lookupSum_cons, if_neg (h b (List.mem_cons_self b rest)),
      ih (fun x hx => h x (List.mem_cons_of_mem b hx)), add_zero]

theorem lookupSum_eq_lookupCount {l : List (Int × ℚ)} (j : Int)
    (h : l.Pairwise (fun a b => a.1 < b.1)) :
    lookupSum l j = lookupCount l j := by
  induction l with
  | nil => rfl
  | cons b rest ih =>
    rcases List.pairwise_cons.mp h with ⟨hb, hrest⟩
    rw [lookupSum_cons, lookupCount_cons]
    by_cases hbj : b.1 = j
    · have hz : lookupSum rest j = 0 := by
        apply lookupSum_eq_zero
        intro x hx
        have := hb x hx; omega
      rw [if_pos hbj, if_pos hbj, hz, add_zero]
    · rw [if_neg hbj, if_neg hbj, zero_add, ih hrest]

theorem merge_with_WF (l : List (Int × ℚ)) (s : Store) (hs : s.WF) :
    (s.merge_with l).WF := by
  induction l generalizing s with
  | nil => exact hs
  | cons b rest ih =>
    show ((b :: rest).foldl (fun st x => st.add x.1 x.2) s).WF
    rw [List.foldl_cons]
    exact ih (s.add b.1 b.2) (add_WF s b.1 b.2 hs)

theorem merge_with_get_count (l : List (Int × ℚ)) (s : Store) (j : Int)
    (hs : s.WF) (hl : ∀ b ∈ l, 0 < b.2) :
    (s.merge_with l).get_count j = s.get_count j + lookupSum l j := by
  induction l generalizing s with
  | nil => rw [lookupSum_nil, add_zero]; rfl
  | cons b rest ih =>
    show ((b :: rest).foldl (fun st x => st.add x.1 x.2) s).get_count j = _
    rw [List.foldl_cons]
    have step := ih (s.add b.1 b.2) (add_WF s b.1 b.2 hs)
      (fun x hx => hl x (List.mem_cons_of_mem b hx))
    rw [show (rest.foldl (fun st x => st.add x.1 x.2) (s.add b.1 b.2))
        = (s.add b.1 b.2).merge_with rest from rfl] at *
    rw [step, add_get_count s b.1 b.2 j hs, lookupSum_cons]
    have hbpos := hl b (List.mem_cons_self b rest)
    by_cases hbj : b.1 = j
    · rw [if_pos hbj, if_pos ⟨hbpos, hbj.symm⟩]; ring
    · rw [if_neg hbj, if_neg (fun hh => hbj hh.2.symm)]; ring

theorem get_total_count_nonneg (s : Store) (h : s.WF) :
    0 ≤ s.get_total_count := by
  unfold get_total_count
  apply List.sum_nonneg
  intro x hx
  rcases List.mem_map.mp hx with ⟨b, hb, hxb⟩
  rw [← hxb]
  exact le_of_lt (h.2 b hb)

theorem get_total_count_eq_zero_iff (s : Store) (h : s.WF) :
    s.get_total_count = 0 ↔ s.bins = [] := by
  constructor
  · intro h0
    cases hb : s.bins with
    | nil => rfl
    | cons b rest =>
      exfalso
      have hpos : 0 < s.get_total_count := by
        unfold get_total_count
        rw [hb, List.map_cons, List.sum_cons]
        apply add_pos_of_pos_of_nonneg
        · exact h.2 b (hb ▸ List.mem_cons_self b rest)
        · apply List.sum_nonneg
          intro x hx
          rcases List.mem_map.mp hx with ⟨y, hy, hxy⟩
          rw [← hxy]
          exact le_of_lt (h.2 y (hb ▸ List.mem_cons_of_mem b hy))
      rw [h0] at hpos
      exact lt_irrefl 0 hpos
  · intro h0
    unfold get_total_count
    rw [h0]; rfl

theorem get_count_nonneg (s : Store) (j : Int) (h : s.WF) :
    0 ≤ s.get_count j :=
  lookupCount_nonneg h.2

theorem headFst_le {l : List (Int × ℚ)}
    (h : l.Pairwise (fun a b => a.1 < b.1)) :
    ∀ b ∈ l, ((l.head?).map (·.1)).getD 0 ≤ b.1 := by
  cases l with
  | nil => intro b hb; cases hb
  | cons x rest =>
    intro b hb
    show x.1 ≤ b.1
    rcases List.mem_cons.mp hb with h1 | h1
    · subst h1; exact le_refl _
    · exact le_of_lt ((List.pairwise_cons.mp h).1 b h1)

theorem le_getLastFst {l : List (Int × ℚ)}
    (h : l.Pairwise (fun a b => a.1 < b.1)) :
    ∀ b ∈ l, b.1 ≤ ((l.getLast?).map (·.1)).getD 0 := by
  induction l with
  | nil => intro b hb; cases hb
  | cons x rest ih =>
    intro b hb
    rcases List.pairwise_cons.mp h with ⟨hx, hrest⟩
    cases rest with
    | nil =>
      rcases List.mem_cons.mp hb with h1 | h1
      · subst h1; exact le_refl _
      · cases h1
    | cons y t =>
      rw [List.getLast?_cons_cons]
      rcases List.mem_cons.mp hb with h1 | h1
      · subst h1
        exact le_trans (le_of_lt (hx y (List.mem_cons_self y t)))
          (ih hrest y (List.mem_cons_self y t))
      · exact ih hrest b h1

theorem get_count_eq_zero_outside (s : Store) (h : s.WF) (j : Int)
    (hj : j < s.get_min_index ∨ s.get_max_index < j) : s.get_count j = 0 := by
  apply lookupCount_eq_zero
  intro b hb
  have h1 := headFst_le h.1 b hb
  have h2 := le_getLastFst h.1 b hb
  unfold get_min_index get_max_index at hj
  omega

theorem get_min_index_le_get_max_index (s : Store) (h : s.WF)
    (hne : s.bins ≠ []) : s.get_min_index ≤ s.get_max_index := by
  rcases List.exists_mem_of_ne_nil s.bins hne with ⟨b, hb⟩
  have h1 := headFst_le h.1 b hb
  have h2 := le_getLastFst h.1 b hb
  unfold get_min_index get_max_index
  omega

theorem bins_ext {l1 l2 : List (Int × ℚ)}
    (h1 : l1.Pairwise (fun a b => a.1 < b.1)) (p1 : ∀ b ∈ l1, 0 < b.2)
    (h2 : l2.Pairwise (fun a b => a.1 < b.1)) (p2 : ∀ b ∈ l2, 0 < b.2)
    (hl : ∀ j, lookupCount l1 j = lookupCount l2 j) : l1 = l2 := by
  induction l1 generalizing l2 with
  | nil =>
    cases l2 with
    | nil => rfl
    | cons b r2 =>
      exfalso
      have e := hl b.1
      rw [lookupCount_nil, lookupCount_cons, if_pos rfl] at e
      have := p2 b (List.mem_cons_self b r2)
      linarith
  | cons a r1 ih =>
    cases l2 with
    | nil =>
      exfalso
      have e := hl a.1
      rw [lookupCount_cons, if_pos rfl, lookupCount_nil] at e
      have := p1 a (List.mem_cons_self a r1)
      linarith
    | cons b r2 =>
      rcases List.pairwise_cons.mp h1 with ⟨ha, hr1⟩
      rcases List.pairwise_cons.mp h2 with ⟨hb, hr2⟩
      have hab : a.1 = b.1 := by
        by_contra hne
        rcases lt_or_gt_of_ne hne with hlt | hgt
        · have e := hl a.1
          rw [lookupCount_cons, if_pos rfl] at e
          have ez : lookupCount (b :: r2) a.1 = 0 := by
            apply lookupCount_eq_zero
            intro x hx
            rcases List.mem_cons.mp hx with hh | hh
            · subst hh; omega
            · have := hb x hh; omega
          rw [ez] at e
          have := p1 a (List.mem_cons_self a r1)
          linarith
        · have e := hl b.1
          rw [lookupCount_cons, lookupCount_cons, if_pos rfl,
            if_neg (by omega : ¬ a.1 = b.1)] at e
          have ez : lookupCount r1 b.1 = 0 := by
            apply lookupCount_eq_zero
            intro x hx
            have := ha x hx; omega
          rw [ez] at e
          have := p2 b (List.mem_cons_self b r2)
          linarith
      have hcnt : a.2 = b.2 := by
        have e := hl a.1
        rw [lookupCount_cons, if_pos rfl, lookupCount_cons,
          if_pos hab.symm] at e
        exact e
      have htails : ∀ j, lookupCount r1 j = lookupCount r2 j := by
        intro j
        by_cases hj : j = a.1
        · subst hj
          rw [lookupCount_eq_zero (fun x hx => by have := ha x hx; omega),
            lookupCount_eq_zero (fun x hx => by have := hb x hx; omega)]
        · have e := hl j
          rw [lookupCount_cons, lookupCount_cons,
            if_neg (fun hh : a.1 = j => hj hh.symm),
            if_neg (fun hh : b.1 = j => hj (by omega))] at e
          exact e
      have hteq := ih hr1 (fun x hx => p1 x (List.mem_cons_of_mem a hx)) hr2
        (fun x hx => p2 x (List.mem_cons_of_mem b hx)) htails
      rw [hteq, Prod.ext hab hcnt]

theorem ext_of_lookup (s1 s2 : Store) (h1 : s1.WF) (h2 : s2.WF)
    (h : ∀ j, s1.get_count j = s2.get_count j) : s1 = s2 := by
  cases s1 with
  | mk l1 =>
    cases s2 with
    | mk l2 =>
      congr 1
      exact bins_ext h1.1 h1.2 h2.1 h2.2 h

end Store

theorem scanBins_inr_sum (rank : ℚ) (l : List (Int × ℚ)) :
    ∀ n m : ℚ, DDSketch.scanBins rank l n = .inr m
      → m = n + (l.map (·.2)).sum := by
  induction l with
  | nil =>
    intro n m h
    simp only [DDSketch.scanBins] at h
    cases h
    simp
  | cons b rest ih =>
    intro n m h
    simp only [DDSketch.scanBins] at h
    split at h
    · cases h
    · rw [ih (n + b.2) m h, List.map_cons, List.sum_cons]
      ring

theorem scanBins_inr_le (rank : ℚ) (l : List (Int × ℚ)) (hne : l ≠ []) :
    ∀ n m : ℚ, DDSketch.scanBins rank l n = .inr m → m ≤ rank := by
  induction l with
  | nil => exact absurd rfl hne
  | cons b rest ih =>
    intro n m h
    simp only [DDSketch.scanBins] at h
    split at h
    · cases h
    · rename_i hcond
      cases rest with
      | nil =>
        simp only [DDSketch.scanBins] at h
        cases h
        exact not_lt.mp hcond
      | cons c t =>
        exact ih (List.cons_ne_nil c t) (n + b.2) m h

theorem count_nonpos_iff_is_empty (s : DDSketch)
    (h1 : s.negative_value_store.WF) (h2 : s.positive_value_store.WF)
    (h0 : 0 ≤ s.zero_count) :
    s.get_count ≤ 0 ↔ s.is_empty = true := by
  have n1 := Store.get_total_count_nonneg _ h1
  have n2 := Store.get_total_count_nonneg _ h2
  simp only [DDSketch.get_count, DDSketch.is_empty, Bool.and_eq_true,
    decide_eq_true_eq, Store.is_empty, List.isEmpty_iff]
  constructor
  · intro hle
    have hz : s.zero_count = 0 := by linarith
    have hn0 : s.negative_value_store.get_total_count = 0 := by linarith
    have hp0 : s.positive_value_store.get_total_count = 0 := by linarith
    exact ⟨⟨hz, (Store.get_total_count_eq_zero_iff _ h1).mp hn0⟩,
      (Store.get_total_count_eq_zero_iff _ h2).mp hp0⟩
  · rintro ⟨⟨hz, hn⟩, hp⟩
    rw [hz, (Store.get_total_count_eq_zero_iff _ h1).mpr hn,
      (Store.get_total_count_eq_zero_iff _ h2).mpr hp]
    norm_num

/-- The mass that the contiguous-counts walk starting at index `i0`
contributes to index `j` (counts that are not positive are dropped by
`Store.add` and contribute nothing). -/
def contrib : Int → List ℚ → Int → ℚ
  | _, [], _ => 0
  | i0, c :: rest, j =>
    (if j = i0 ∧ 0 < c then c else 0) + contrib (i0 + 1) rest j

theorem contrib_nil (i0 j : Int) : contrib i0 [] j = 0 := rfl

theorem contrib_cons (i0 : Int) (c : ℚ) (rest : List ℚ) (j : Int) :
    contrib i0 (c :: rest) j
      = (if j = i0 ∧ 0 < c then c else 0) + contrib (i0 + 1) rest j := rfl

theorem addContiguous_WF (cs : List ℚ) (st : Store) (i0 : Int)
    (h : st.WF) : (addContiguous st i0 cs).WF := by
  induction cs generalizing st i0 with
  | nil => exact h
  | cons c rest ih => exact ih (st.add i0 c) (i0 + 1) (Store.add_WF st i0 c h)

theorem addContiguous_get_count (cs : List ℚ) (st : Store) (i0 : Int)
    (j : Int) (h : st.WF) :
    (addContiguous st i0 cs).get_count j
      = st.get_count j + contrib i0 cs j := by
  induction cs generalizing st i0 with
  | nil => rw [contrib_nil, add_zero]; rfl
  | cons c rest ih =>
    show (addContiguous (st.add i0 c) (i0 + 1) rest).get_count j = _
    rw [ih (st.add i0 c) (i0 + 1) (Store.add_WF st i0 c h),
      Store.add_get_count st i0 c j h, contrib_cons]
    by_cases hcase : j = i0 ∧ 0 < c
    · rw [if_pos hcase, if_pos ⟨hcase.2, hcase.1⟩]; ring
    · rw [if_neg hcase, if_neg (fun hh => hcase ⟨hh.2, hh.1⟩)]; ring

theorem contrib_rangeCounts (s : Store) (h : s.WF) (k : ℕ) :
    ∀ a j : Int,
      contrib a ((List.range k).map (fun t : ℕ => s.get_count (a + (t : Int)))) j
        = if a ≤ j ∧ j < a + (k : Int) then s.get_count j else 0 := by
  induction k with
  | zero =>
    intro a j
    rw [List.range_zero, List.map_nil, contrib_nil, if_neg (by omega)]
  | succ k ih =>
    intro a j
    rw [List.range_succ_eq_map, List.map_cons, List.map_map]
    have hf : ((fun t : ℕ => s.get_count (a + (t : Int))) ∘ Nat.succ)
        = (fun t : ℕ => s.get_count ((a + 1) + (t : Int))) := by
      funext t
      show s.get_count (a + ((Nat.succ t : ℕ) : Int))
        = s.get_count ((a + 1) + (t : Int))
      have harg : a + ((Nat.succ t : ℕ) : Int) = (a + 1) + (t : Int) := by
        push_cast
        ring
      rw [harg]
    rw [hf, contrib_cons, ih (a + 1) j]
    by_cases hj : j = a
    · subst hj
      rw [if_neg (by omega : ¬((j : Int) + 1 ≤ j ∧ j < j + 1 + (k : Int))),
        add_zero, Nat.cast_zero, add_zero]
      have hnn := Store.get_count_nonneg s j h
      have hrhs : (j : Int) ≤ j ∧ j < j + ((k + 1 : ℕ) : Int) := by
        constructor <;> omega
      by_cases hpos : 0 < s.get_count j
      · rw [if_pos ⟨rfl, hpos⟩, if_pos hrhs]
      · rw [if_neg (fun hh => hpos hh.2), if_pos hrhs]
        linarith
    · rw [if_neg (fun hh => hj hh.1), zero_add]
      by_cases hin : (a : Int) + 1 ≤ j ∧ j < a + 1 + (k : Int)
      · rw [if_pos hin, if_pos (by omega)]
      · rw [if_neg hin, if_neg (by omega)]

theorem protoToStore_storeToProto (s : Store) (h : s.WF) :
    protoToStore (storeToProto s) = s := by
  unfold storeToProto
  by_cases he : s.is_empty
  · rw [if_pos he]
    have hb : s.bins = [] := by
      simpa [Store.is_empty, List.isEmpty_iff] using he
    show Store.empty = s
    cases s with
    | mk l => simp only at hb; rw [hb]; rfl
  · rw [if_neg he]
    have hne : s.bins ≠ [] := by
      simpa [Store.is_empty, List.isEmpty_iff] using he
    have hab := Store.get_min_index_le_get_max_index s h hne
    apply Store.ext_of_lookup _ _
      (addContiguous_WF _ _ _ ⟨List.Pairwise.nil, by intro b hb; cases hb⟩) h
    intro j
    rw [addContiguous_get_count _ _ _ _
      ⟨List.Pairwise.nil, by intro b hb; cases hb⟩]
    have hzero : Store.get_count (Store.empty) j = 0 := rfl
    show Store.get_count Store.empty j + _ = _
    rw [hzero, zero_add, contrib_rangeCounts s h]
    have hcast : ((s.get_max_index - s.get_min_index + 1).toNat : Int)
        = s.get_max_index - s.get_min_index + 1 := Int.toNat_of_nonneg (by omega)
    by_cases hin : s.get_min_index ≤ j
        ∧ j < s.get_min_index + ((s.get_max_index - s.get_min_index + 1).toNat : Int)
    · rw [if_pos hin]
    · rw [if_neg hin]
      rw [hcast] at hin
      exact (Store.get_count_eq_zero_outside s h j (by omega)).symm

theorem protoToIndexMapping_indexMappingToProto (m : IndexMapping)
    (h : 1 < m.gamma) : protoToIndexMapping (indexMappingToProto m) = .ok m := by
  cases m with
  | mk layout gamma index_offset =>
    simp only at h
    cases layout
    · show unwrapResult (IndexMapping.with_gamma_offset .LOG gamma index_offset)
        = .ok ⟨.LOG, gamma, index_offset⟩
      unfold IndexMapping.with_gamma_offset
      rw [if_neg (not_le.mpr h)]
      rfl
    · show unwrapResult
          (IndexMapping.with_gamma_offset .LogCubic gamma index_offset)
        = .ok ⟨.LogCubic, gamma, index_offset⟩
      unfold IndexMapping.with_gamma_offset
      rw [if_neg (not_le.mpr h)]
      rfl

theorem descending_iter_snd_sum (st : Store) :
    (st.get_descending_iter.map (·.2)).sum = st.get_total_count := by
  unfold Store.get_descending_iter Store.get_total_count
  rw [List.map_reverse, List.sum_reverse]

theorem merge_with_descending_get_count (s o : Store) (hs : s.WF) (ho : o.WF)
    (i : Int) :
    (s.merge_with o.get_descending_iter).get_count i
      = s.get_count i + o.get_count i := by
  rw [Store.merge_with_get_count o.get_descending_iter s i hs
    (fun b hb => ho.2 b (List.mem_reverse.mp hb))]
  unfold Store.get_descending_iter
  rw [Store.lookupSum_reverse, Store.lookupSum_eq_lookupCount _ ho.1]
  rfl

theorem get_min_congr (a b : DDSketch) (val : Int → ℚ)
    (hn : a.negative_value_store = b.negative_value_store)
    (hp : a.positive_value_store = b.positive_value_store)
    (hz : a.zero_count = b.zero_count) : a.get_min val = b.get_min val := by
  unfold DDSketch.get_min
  rw [hn, hp, hz]

theorem get_max_congr (a b : DDSketch) (val : Int → ℚ)
    (hn : a.negative_value_store = b.negative_value_store)
    (hp : a.positive_value_store = b.positive_value_store)
    (hz : a.zero_count = b.zero_count) : a.get_max val = b.get_max val := by
  unfold DDSketch.get_max
  rw [hn, hp, hz]

theorem get_value_at_quantile_congr (a b : DDSketch) (val : Int → ℚ) (q : ℚ)
    (hn : a.negative_value_store = b.negative_value_store)
    (hp : a.positive_value_store = b.positive_value_store)
    (hz : a.zero_count = b.zero_count) :
    a.get_value_at_quantile val q = b.get_value_at_quantile val q := by
  unfold DDSketch.get_value_at_quantile DDSketch.get_count
  rw [hn, hp, hz]

/-- A freshly constructed sketch with empty stores, used as a concrete test
input (the mapping descriptor and the indexed-value bounds are arbitrary
valid factory outputs). -/
def freshSketch : DDSketch :=
  { index_mapping := ⟨.LOG, 2, 0⟩
    min_indexed_value := 1
    max_indexed_value := 1000
    negative_value_store := Store.empty
    positive_value_store := Store.empty
    zero_count := 0 }

/-- A concrete populated sketch used as a test input. -/
def sampleSketch : DDSketch :=
  { index_mapping := ⟨.LOG, 2, 0⟩
    min_indexed_value := 1
    max_indexed_value := 1000
    negative_value_store := ⟨[(0, 1)]⟩
    positive_value_store := ⟨[(1, 2)]⟩
    zero_count := 1 }

/-- A second concrete populated sketch sharing `sampleSketch`'s mapping. -/
def otherSketch : DDSketch :=
  { index_mapping := ⟨.LOG, 2, 0⟩
    min_indexed_value := 1
    max_indexed_value := 1000
    negative_value_store := Store.empty
    positive_value_store := ⟨[(1, 3), (4, 1)]⟩
    zero_count := 2 }

/-- C1: the claim states that `accept_with_count(v, c)` adds `c` — not the
constant 1 — to the positive store when `v > min_indexable_value` (and
symmetrically), so that `get_count()` equals `Σ cᵢ`.  The code instead adds
`1.0` in every accepting branch (sketch.rs:49, 52, 54).  Evaluating the
embedded code: accepting value `2` with count `5` on a fresh sketch puts
mass `1` — not `5` — in the positive store, and `get_count()` is `1`,
not `5`. -/
theorem c1_accept_with_count_adds_one_not_count :
    ((freshSketch.accept_with_count (fun _ => 3) (.fin 2) 5
        ).positive_value_store.get_count 3 = 1)
    ∧ ((freshSketch.accept_with_count (fun _ => 3) (.fin 2) 5
        ).get_count = 1)
    ∧ ¬((freshSketch.accept_with_count (fun _ => 3) (.fin 2) 5
        ).get_count = 5) := by
  refine ⟨by decide, by decide, by decide⟩

/-- C6: `accept_with_count` with a negative count, or with a value whose
magnitude exceeds `max_indexable_value`, returns without error and leaves
the whole sketch state — both stores and `zero_count`, hence `get_count()` —
unchanged (sketch.rs:39-45). -/
theorem c6_negative_count_or_out_of_range_is_noop (idx : F64 → Int)
    (s : DDSketch) (v : F64) (c : ℚ)
    (h : c < 0 ∨ F64.gt (F64.abs v) (.fin s.max_indexed_value) = true) :
    s.accept_with_count idx v c = s := by
  unfold DDSketch.accept_with_count
  rcases h with hc | hv
  · rw [if_pos hc]
  · by_cases hc : c < 0
    · rw [if_pos hc]
    · rw [if_neg hc]
      have hcond : (F64.lt v (.fin (-s.max_indexed_value))
          || F64.gt v (.fin s.max_indexed_value)) = true := by
        cases v with
        | nan => simp [F64.abs, F64.gt] at hv
        | fin x =>
          simp only [F64.abs, F64.gt, decide_eq_true_eq] at hv
          simp only [F64.lt, F64.gt, Bool.or_eq_true, decide_eq_true_eq]
          rcases lt_abs.mp hv with h1 | h1
          · right; exact h1
          · left; linarith
      rw [if_pos hcond]

/-- C6 witness: a negative count on a fresh sketch is a no-op. -/
theorem c6_witness :
    (((-1 : ℚ) < 0
        ∨ F64.gt (F64.abs (.fin 0)) (.fin freshSketch.max_indexed_value)
            = true)
      ∧ freshSketch.accept_with_count (fun _ => 0) (.fin 0) (-1)
          = freshSketch) :=
  ⟨Or.inl (by decide),
    c6_negative_count_or_out_of_range_is_noop (fun _ => 0) freshSketch
      (.fin 0) (-1) (Or.inl (by decide))⟩

/-- C7: on an empty sketch (`zero_count = 0` and both stores empty),
`get_min`, `get_max`, `get_sum`, `get_average` and `get_value_at_quantile`
all return `None` rather than an error, for every quantile argument
(sketch.rs:58-62, 76-171). -/
theorem c7_empty_queries_return_none (s : DDSketch) (val : Int → ℚ) (q : ℚ)
    (h : s.is_empty = true) :
    s.get_min val = none ∧ s.get_max val = none ∧ s.get_sum val = none
      ∧ s.get_average val = none ∧ s.get_value_at_quantile val q = none := by
  simp only [DDSketch.is_empty, Bool.and_eq_true, decide_eq_true_eq,
    Store.is_empty, List.isEmpty_iff] at h
  obtain ⟨⟨hz, hn⟩, hp⟩ := h
  have hcount : s.get_count = 0 := by
    unfold DDSketch.get_count Store.get_total_count
    rw [hz, hn, hp]
    norm_num
  refine ⟨?_, ?_, ?_, ?_, ?_⟩
  · simp [DDSketch.get_min, Store.is_empty, hn, hp, hz]
  · simp [DDSketch.get_max, Store.is_empty, hn, hp, hz]
  · simp [DDSketch.get_sum, hcount]
  · simp [DDSketch.get_average, hcount]
  · simp [DDSketch.get_value_at_quantile, hcount]

/-- C7 witness: the fresh empty sketch answers `None` on all five queries. -/
theorem c7_witness :
    (freshSketch.is_empty = true)
      ∧ (freshSketch.get_min (fun _ => 0) = none
        ∧ freshSketch.get_max (fun _ => 0) = none
        ∧ freshSketch.get_sum (fun _ => 0) = none
        ∧ freshSketch.get_average (fun _ => 0) = none
        ∧ freshSketch.get_value_at_quantile (fun _ => 0) (1/2) = none) :=
  ⟨by decide,
    c7_empty_queries_return_none freshSketch (fun _ => 0) (1/2) (by decide)⟩

/-- C8: `encode` emits the index-mapping block first, then a zero-count
block exactly when `zero_count ≠ 0`, then the positive-store block, then
the negative-store block, and the output is trimmed to exactly these blocks
(sketch.rs:223-238). -/
theorem c8_encode_block_order (s : DDSketch) :
    (s.zero_count ≠ 0 →
      s.encode = [.indexMappingBlock s.index_mapping,
        .zeroCountBlock s.zero_count,
        .positiveStoreBlock s.positive_value_store.bins,
        .negativeStoreBlock s.negative_value_store.bins])
    ∧ (s.zero_count = 0 →
      s.encode = [.indexMappingBlock s.index_mapping,
        .positiveStoreBlock s.positive_value_store.bins,
        .negativeStoreBlock s.negative_value_store.bins]) := by
  constructor <;> intro hz <;>
    simp [DDSketch.encode, Output.with_capacity, Output.write, Output.trim, hz]

/-- C8 witness: a sketch with nonzero `zero_count` encodes to the four
blocks in order. -/
theorem c8_witness :
    (sampleSketch.zero_count ≠ 0)
      ∧ sampleSketch.encode = [.indexMappingBlock sampleSketch.index_mapping,
          .zeroCountBlock sampleSketch.zero_count,
          .positiveStoreBlock sampleSketch.positive_value_store.bins,
          .negativeStoreBlock sampleSketch.negative_value_store.bins] :=
  ⟨by decide, (c8_encode_block_order sampleSketch).1 (by decide)⟩

/-- C9: `accept_with_count(NaN, c)` with `c ≥ 0` is not dropped: NaN fails
the range guards and both sign comparisons, so it falls into the zero
branch, incrementing `zero_count` and hence `get_count()`
(sketch.rs:38-56). -/
theorem c9_nan_lands_in_zero_bucket (idx : F64 → Int) (s : DDSketch) (c : ℚ)
    (h : 0 ≤ c) :
    s.accept_with_count idx .nan c
        = { s with zero_count := s.zero_count + 1 }
      ∧ (s.accept_with_count idx .nan c).get_count = s.get_count + 1 := by
  have heq : s.accept_with_count idx .nan c
      = { s with zero_count := s.zero_count + 1 } := by
    unfold DDSketch.accept_with_count
    rw [if_neg (not_lt.mpr h)]
    simp [F64.lt, F64.gt]
  refine ⟨heq, ?_⟩
  rw [heq]
  unfold DDSketch.get_count
  show s.zero_count + 1 + _ + _ = _
  ring

/-- C9 witness: accepting NaN with count 0 on the fresh sketch increments
`zero_count` and the total count. -/
theorem c9_witness :
    ((0 : ℚ) ≤ 0)
      ∧ (freshSketch.accept_with_count (fun _ => 0) .nan 0
            = { freshSketch with zero_count := freshSketch.zero_count + 1 }
        ∧ (freshSketch.accept_with_count (fun _ => 0) .nan 0).get_count
            = freshSketch.get_count + 1) :=
  ⟨le_refl 0,
    c9_nan_lands_in_zero_bucket (fun _ => 0) freshSketch 0 (le_refl 0)⟩

/-- C2: `get_value_at_quantile` behaves exactly as the specification
sentence describes — `None` outside `[0,1]` or on an empty sketch, and
otherwise the descending-negatives / zero-bucket / ascending-positives walk
against `rank = q·(count−1)` with strict `>` — for every well-formed sketch
(stores sorted with positive counts, non-negative zero count)
(sketch.rs:135-171). -/
theorem c2_quantile_matches_spec (val : Int → ℚ) (s : DDSketch) (q : ℚ)
    (h1 : s.negative_value_store.WF) (h2 : s.positive_value_store.WF)
    (h0 : 0 ≤ s.zero_count) :
    s.get_value_at_quantile val q = s.get_value_at_quantile_spec val q := by
  unfold DDSketch.get_value_at_quantile DDSketch.get_value_at_quantile_spec
  by_cases hq : ¬(0 ≤ q ∧ q ≤ 1)
  · rw [if_pos hq, if_pos hq]
  · rw [if_neg hq, if_neg hq]
    have hiff := count_nonpos_iff_is_empty s h1 h2 h0
    by_cases hc : s.get_count ≤ 0
    · rw [if_pos hc, if_pos (hiff.mp hc)]
    · rw [if_neg hc, if_neg (fun hh => hc (hiff.mpr hh))]

/-- C2 witness: on a concrete populated sketch the embedded code and the
specification's algorithm agree at the median. -/
theorem c2_witness :
    (sampleSketch.negative_value_store.WF
        ∧ sampleSketch.positive_value_store.WF
        ∧ (0 : ℚ) ≤ sampleSketch.zero_count)
      ∧ sampleSketch.get_value_at_quantile (fun i => (i : ℚ)) (1/2)
          = sampleSketch.get_value_at_quantile_spec (fun i => (i : ℚ)) (1/2) :=
  ⟨⟨by decide, by decide, by decide⟩,
    c2_quantile_matches_spec (fun i => (i : ℚ)) sampleSketch (1/2)
      (by decide) (by decide) (by decide)⟩

/-- C4 counterexample: the claim says an unsupported interpolation value
fails with the result-style `InvalidArgument`; on the concrete record with
interpolation `LINEAR` the translation instead panics with
"Unsupported interpolation type!" and produces no result-style error
(mappers.rs:22-24). -/
theorem c4_counterexample :
    protoToIndexMapping ⟨2, 0, .LINEAR⟩
        = .panicked "Unsupported interpolation type!"
      ∧ (protoToIndexMapping ⟨2, 0, .LINEAR⟩).isErr = false :=
  ⟨rfl, rfl⟩

/-- C4 (amended): for every schema-based IndexMapping record whose
interpolation is neither `NONE` nor `CUBIC`, the translation panics with
the message "Unsupported interpolation type!"; it does not return a
result-style `InvalidArgument` error (mappers.rs:8-27). -/
theorem c4_unknown_interpolation_panics (p : ProtoIndexMapping)
    (hn : p.interpolation ≠ .NONE) (hc : p.interpolation ≠ .CUBIC) :
    protoToIndexMapping p = .panicked "Unsupported interpolation type!"
      ∧ (protoToIndexMapping p).isErr = false := by
  cases hi : p.interpolation with
  | NONE => exact absurd hi hn
  | CUBIC => exact absurd hi hc
  | LINEAR =>
    unfold protoToIndexMapping
    rw [hi]
    exact ⟨rfl, rfl⟩

/-- C4 witness: the amended claim at a concrete `LINEAR` record. -/
theorem c4_witness :
    ((ProtoIndexMapping.mk 3 1 .LINEAR).interpolation ≠ .NONE
        ∧ (ProtoIndexMapping.mk 3 1 .LINEAR).interpolation ≠ .CUBIC)
      ∧ (protoToIndexMapping ⟨3, 1, .LINEAR⟩
            = .panicked "Unsupported interpolation type!"
        ∧ (protoToIndexMapping ⟨3, 1, .LINEAR⟩).isErr = false) :=
  ⟨⟨by decide, by decide⟩,
    c4_unknown_interpolation_panics ⟨3, 1, .LINEAR⟩ (by decide) (by decide)⟩

/-- C5: `merge_with` fails with `InvalidArgument` exactly when the two
mappings differ; with equal mappings it succeeds, the merged stores carry
the bin-wise sums of the two operands' counts, and the zero counts add
(sketch.rs:211-221). -/
theorem c5_merge_with (s o : DDSketch)
    (h1 : s.negative_value_store.WF) (h2 : s.positive_value_store.WF)
    (h3 : o.negative_value_store.WF) (h4 : o.positive_value_store.WF) :
    (s.merge_with o
        = .error (.invalidArgument "Unmatched indexMapping.")
      ↔ s.index_mapping ≠ o.index_mapping)
    ∧ (s.index_mapping = o.index_mapping →
        ∃ r : DDSketch, s.merge_with o = .ok r
          ∧ (∀ i, r.negative_value_store.get_count i
              = s.negative_value_store.get_count i
                + o.negative_value_store.get_count i)
          ∧ (∀ i, r.positive_value_store.get_count i
              = s.positive_value_store.get_count i
                + o.positive_value_store.get_count i)
          ∧ r.zero_count = s.zero_count + o.zero_count) := by
  unfold DDSketch.merge_with
  by_cases he : s.index_mapping = o.index_mapping
  · rw [if_pos he]
    refine ⟨⟨fun h => Except.noConfusion h, fun hne => absurd he hne⟩, ?_⟩
    intro _
    refine ⟨_, rfl, ?_, ?_, rfl⟩
    · intro i
      exact merge_with_descending_get_count _ _ h1 h3 i
    · intro i
      exact merge_with_descending_get_count _ _ h2 h4 i
  · rw [if_neg he]
    refine ⟨⟨fun _ => he, fun _ => rfl⟩, fun heq => absurd heq he⟩

/-- C5 witness: merging two concrete sketches with the same mapping. -/
theorem c5_witness :
    (sampleSketch.negative_value_store.WF
        ∧ sampleSketch.positive_value_store.WF
        ∧ otherSketch.negative_value_store.WF
        ∧ otherSketch.positive_value_store.WF)
      ∧ ((sampleSketch.merge_with otherSketch
            = .error (.invalidArgument "Unmatched indexMapping.")
          ↔ sampleSketch.index_mapping ≠ otherSketch.index_mapping)
        ∧ (sampleSketch.index_mapping = otherSketch.index_mapping →
            ∃ r : DDSketch, sampleSketch.merge_with otherSketch = .ok r
              ∧ (∀ i, r.negative_value_store.get_count i
                  = sampleSketch.negative_value_store.get_count i
                    + otherSketch.negative_value_store.get_count i)
              ∧ (∀ i, r.positive_value_store.get_count i
                  = sampleSketch.positive_value_store.get_count i
                    + otherSketch.positive_value_store.get_count i)
              ∧ r.zero_count
                  = sampleSketch.zero_count + otherSketch.zero_count)) :=
  ⟨⟨by decide, by decide, by decide, by decide⟩,
    c5_merge_with sampleSketch otherSketch
      (by decide) (by decide) (by decide) (by decide)⟩

/-- C10: whenever the sketch holds positive total count and the quantile
lies in `[0,1]`, `get_value_at_quantile` returns `Some` value: the
accumulated `n` over all negative bins, the zero bucket and all positive
bins reaches the total count, which strictly exceeds
`rank = q·(count−1)`, so the trailing `None` branch after the
positive-store walk is unreachable (sketch.rs:135-171). -/
theorem c10_quantile_total (val : Int → ℚ) (s : DDSketch) (q : ℚ)
    (h0 : 0 ≤ q) (h1 : q ≤ 1) (hc : 0 < s.get_count) :
    (s.get_value_at_quantile val q).isSome = true := by
  unfold DDSketch.get_value_at_quantile
  rw [if_neg (not_not_intro ⟨h0, h1⟩), if_neg (not_le.mpr hc)]
  have hrank : q * (s.get_count - 1) < s.get_count := by
    rcases eq_or_lt_of_le h0 with hq0 | hq0
    · rw [← hq0, zero_mul]; exact hc
    · have hqc : q * s.get_count ≤ s.get_count :=
        mul_le_of_le_one_left (le_of_lt hc) h1
      have hex : q * (s.get_count - 1) = q * s.get_count - q := by ring
      linarith
  cases hscan : DDSketch.scanBins (q * (s.get_count - 1))
      s.negative_value_store.get_descending_iter 0 with
  | inl i => simp [hscan]
  | inr n0 =>
    have hn0 : n0 = 0 + (s.negative_value_store.get_descending_iter.map
        (·.2)).sum := scanBins_inr_sum _ _ 0 n0 hscan
    rw [descending_iter_snd_sum, zero_add] at hn0
    by_cases hz : n0 + s.zero_count > q * (s.get_count - 1)
    · simp [hscan, hz]
    · cases hscan2 : DDSketch.scanBins (q * (s.get_count - 1))
          s.positive_value_store.get_ascending_iter
          (n0 + s.zero_count) with
      | inl i => simp [hscan, hz, hscan2]
      | inr m =>
        exfalso
        have hm := scanBins_inr_sum _ _ _ m hscan2
        have hma : (s.positive_value_store.get_ascending_iter.map (·.2)).sum
            = s.positive_value_store.get_total_count := rfl
        rw [hma] at hm
        have hcount : m = s.get_count := by
          rw [hm, hn0]
          unfold DDSketch.get_count
          ring
        by_cases hpe : s.positive_value_store.get_ascending_iter = []
        · rw [hpe] at hscan2
          simp only [DDSketch.scanBins] at hscan2
          cases hscan2
          exact hz (by rw [hcount]; exact hrank)
        · have hle := scanBins_inr_le _ _ hpe _ m hscan2
          rw [hcount] at hle
          linarith

/-- C10 witness: a populated sketch answers `Some` at the median. -/
theorem c10_witness :
    ((0 : ℚ) ≤ 1/2 ∧ (1/2 : ℚ) ≤ 1 ∧ 0 < sampleSketch.get_count)
      ∧ (sampleSketch.get_value_at_quantile (fun i => (i : ℚ)) (1/2)).isSome
          = true :=
  ⟨⟨by decide, by decide, by decide⟩,
    c10_quantile_total (fun i => (i : ℚ)) sampleSketch (1/2)
      (by decide) (by decide) (by decide)⟩

/-- C3: translating a well-formed sketch to the schema-based record and
back yields a sketch with the same mapping, the same `zero_count`, and the
same per-bin store contents, so `get_min`, `get_max` and the median query
answer identically before and after the round trip (mappers.rs:58-129,
test_proto.rs).  The numeric `min/max_indexable_value` functions live in
the absent `index_mapping.rs`, so the statement holds for every choice of
them. -/
theorem c3_schema_roundtrip (minIV maxIV : IndexMapping → ℚ) (s : DDSketch)
    (val : Int → ℚ) (hg : 1 < s.index_mapping.gamma)
    (h1 : s.negative_value_store.WF) (h2 : s.positive_value_store.WF) :
    ∃ r : DDSketch, protoToSketch minIV maxIV (sketchToProto s) = .ok r
      ∧ r.index_mapping = s.index_mapping
      ∧ r.zero_count = s.zero_count
      ∧ r.negative_value_store = s.negative_value_store
      ∧ r.positive_value_store = s.positive_value_store
      ∧ r.get_min val = s.get_min val
      ∧ r.get_max val = s.get_max val
      ∧ r.get_value_at_quantile val (1/2)
          = s.get_value_at_quantile val (1/2) := by
  have en := protoToStore_storeToProto s.negative_value_store h1
  have ep := protoToStore_storeToProto s.positive_value_store h2
  unfold protoToSketch sketchToProto
  simp only
  rw [protoToIndexMapping_indexMappingToProto s.index_mapping hg]
  refine ⟨_, rfl, rfl, rfl, en, ep, ?_, ?_, ?_⟩
  · exact get_min_congr _ _ val en ep rfl
  · exact get_max_congr _ _ val en ep rfl
  · exact get_value_at_quantile_congr _ _ val (1/2) en ep rfl

/-- C3 witness: the round trip at a concrete populated sketch. -/
theorem c3_witness :
    ((1 : ℚ) < sampleSketch.index_mapping.gamma
        ∧ sampleSketch.negative_value_store.WF
        ∧ sampleSketch.positive_value_store.WF)
      ∧ ∃ r : DDSketch,
          protoToSketch (fun _ => 0) (fun _ => 1000)
              (sketchToProto sampleSketch) = .ok r
            ∧ r.index_mapping = sampleSketch.index_mapping
            ∧ r.zero_count = sampleSketch.zero_count
            ∧ r.negative_value_store = sampleSketch.negative_value_store
            ∧ r.positive_value_store = sampleSketch.positive_value_store
            ∧ r.get_min (fun i => (i : ℚ))
                = sampleSketch.get_min (fun i => (i : ℚ))
            ∧ r.get_max (fun i => (i : ℚ))
                = sampleSketch.get_max (fun i => (i : ℚ))
            ∧ r.get_value_at_quantile (fun i => (i : ℚ)) (1/2)
                = sampleSketch.get_value_at_quantile (fun i => (i : ℚ)) (1/2) :=
  ⟨⟨by decide, by decide, by decide⟩,
    c3_schema_roundtrip (fun _ => 0) (fun _ => 1000) sampleSketch
      (fun i => (i : ℚ)) (by decide) (by decide) (by decide)⟩

end DDSketchRust
